import Mathlib

/-
  Verification of the discrete-event simulation engine in src/SimulateQueue.py
  (repository TzipHoro/QueuingSim-QoS).

  The Python program simulate_queue builds a SimQueue around a simpy
  Environment.  The engine parts that live in src/ are translated directly:
  the PriorityQueue (backed by the CPython heapq algorithms, reproduced
  verbatim from heapq.py), the Server, the Job records, the arrival
  generators (generate_jobs), the dispatch loop (process_jobs) and the
  global total_jobs accumulation dictionary.  The simpy Environment itself
  is not part of the repository sources, so the clock and event scheduler
  are modelled from the specification (sections 4.1 and 5): simulated time
  plus an ordered set of pending timed resumptions, processed in
  non-decreasing time order, ties at one instant resolved FIFO by
  scheduling order; advancing by a negative duration fails fast; run
  processes events until the clock reaches the horizon and then halts,
  leaving pending processes suspended.

  Random sampling (numpy) is an external collaborator: the engine consumes
  an abstract stream of durations and the trace records, for every sample,
  which distribution and parameter the engine requested.
-/

namespace QueuingSim

/-- Simulated time; the Python engine uses Python floats and ints, modelled
here as rationals. -/
abbrev Time := ℚ

/-- A request issued to the random-variate collaborator, together with the
parameter the engine passed: generate_jobs calls
np.random.poisson(self.arrival_rates[class_id]) and Server.serve calls
np.random.exponential(scale=self.service_rate). -/
inductive Request where
  | poisson (lam : Time)
  | exponential (scale : Time)
deriving DecidableEq, Repr

/-- An entry of the PriorityQueue heap.  PriorityQueue.add pushes the tuple
(priority, job); the job object itself contributes only its priority to
comparisons (Job.lt below) and its identity to dispatch. -/
structure HeapEntry where
  pri : ℕ
  jobId : ℕ
  jobPri : ℕ
deriving DecidableEq, Repr

instance : Inhabited HeapEntry := ⟨⟨0, 0, 0⟩⟩

/-- Job.__lt__: self.priority < other.priority.  The comparison looks only
at the priority class, never at identity, arrival time or sequence. -/
def jobLt (a b : HeapEntry) : Bool := a.jobPri < b.jobPri

/-- Comparison of the pushed tuples (priority, job), following the Python
tuple order: first components by integer order, and on equality the jobs
via Job.__lt__. -/
def entryLt (a b : HeapEntry) : Bool :=
  decide (a.pri < b.pri) || (decide (a.pri = b.pri) && jobLt a b)

/-!  The CPython heapq algorithms (heapq.py), reproduced over lists.
The loops of _siftdown and _siftup are written with an explicit fuel
counter so that all definitions compute; the wrappers pass fuel that is
provably larger than the number of iterations the Python loops perform. -/

/-- Loop of heapq._siftdown: follow the path to the root, moving parents
down until finding a place where newitem fits.  Returns the array and the
final position (the Python loop mutates heap and pos). -/
def siftdownLoop (lt : HeapEntry → HeapEntry → Bool) (startpos : ℕ) (newitem : HeapEntry) :
    ℕ → List HeapEntry → ℕ → List HeapEntry × ℕ
  | 0, heap, pos => (heap, pos)
  | fuel + 1, heap, pos =>
    if startpos < pos then
      let parentpos := (pos - 1) / 2
      let parent := heap.getD parentpos default
      if lt newitem parent then
        siftdownLoop lt startpos newitem fuel (heap.set pos parent) parentpos
      else (heap, pos)
    else (heap, pos)

/-- heapq._siftdown(heap, startpos, pos). -/
def siftdown (lt : HeapEntry → HeapEntry → Bool) (heap : List HeapEntry)
    (startpos pos : ℕ) : List HeapEntry :=
  let newitem := heap.getD pos default
  let r := siftdownLoop lt startpos newitem (pos + 1) heap pos
  r.1.set r.2 newitem

/-- Loop of heapq._siftup: bubble the smaller child up until hitting a
leaf.  Returns the array and the final (leaf) position. -/
def siftupLoop (lt : HeapEntry → HeapEntry → Bool) (endpos : ℕ) :
    ℕ → List HeapEntry → ℕ → List HeapEntry × ℕ
  | 0, heap, pos => (heap, pos)
  | fuel + 1, heap, pos =>
    let childpos := 2 * pos + 1
    if childpos < endpos then
      let rightpos := childpos + 1
      let childpos :=
        if rightpos < endpos && !(lt (heap.getD childpos default) (heap.getD rightpos default)) then
          rightpos
        else childpos
      siftupLoop lt endpos fuel (heap.set pos (heap.getD childpos default)) childpos
    else (heap, pos)

/-- heapq._siftup(heap, pos): bubble the smaller child up to the leaf, put
newitem at the leaf, then sift its parents down. -/
def siftup (lt : HeapEntry → HeapEntry → Bool) (heap : List HeapEntry) (pos : ℕ) :
    List HeapEntry :=
  let endpos := heap.length
  let startpos := pos
  let newitem := heap.getD pos default
  let r := siftupLoop lt endpos (endpos + 1) heap pos
  siftdown lt (r.1.set r.2 newitem) startpos r.2

/-- heapq.heappush(heap, item). -/
def heappush (lt : HeapEntry → HeapEntry → Bool) (heap : List HeapEntry)
    (item : HeapEntry) : List HeapEntry :=
  let h := heap ++ [item]
  siftdown lt h 0 (h.length - 1)

/-- heapq.heappop(heap).  The Python function raises IndexError on an empty
heap; the callers in src always check emptiness first, so the empty case is
returned as none. -/
def heappop (lt : HeapEntry → HeapEntry → Bool) (heap : List HeapEntry) :
    Option (HeapEntry × List HeapEntry) :=
  match heap.getLast? with
  | none => none
  | some lastelt =>
    let rest := heap.dropLast
    match rest with
    | [] => some (lastelt, [])
    | x :: _ => some (x, siftup lt (rest.set 0 lastelt) 0)

/-- A Result Record of the total_jobs dictionary: Job.start writes the
priority and enter_time of a job, Server.serve later merges in exit_time. -/
structure Record where
  priority : ℕ
  enter : Time
  exit : Option Time
deriving DecidableEq, Repr

/-- Lookup in the total_jobs dictionary (keys are job ids). -/
def storeLookup : List (ℕ × Record) → ℕ → Option Record
  | [], _ => none
  | (k, v) :: rest, id => if k = id then some v else storeLookup rest id

/-- total_jobs[id] = v: replace the binding in place if the key exists,
append otherwise (Python dicts keep insertion order). -/
def storeInsert : List (ℕ × Record) → ℕ → Record → List (ℕ × Record)
  | [], id, v => [(id, v)]
  | (k, w) :: rest, id, v =>
    if k = id then (id, v) :: rest else (k, w) :: storeInsert rest id v

/-- The suspended logical processes of the engine, each identified by the
point where it will resume:
  genFirst c   - generate_jobs(c) at the top of its loop (about to sample
                 its first interarrival time and wait);
  genArrive c  - generate_jobs(c) resuming after an interarrival timeout
                 (creates and admits a job, then samples and waits again);
  processJobs  - the SimQueue.process_jobs polling loop;
  queueStart   - a PriorityQueue.start process created by process_jobs;
  serveBegin   - Server.serve(job) about to sample its service time;
  serveFinish  - Server.serve(job) resuming after the service timeout
                 (stamps exit_time and finalizes the record). -/
inductive Proc where
  | genFirst (c : ℕ)
  | genArrive (c : ℕ)
  | processJobs
  | queueStart
  | serveBegin (jobId : ℕ) (jobPri : ℕ)
  | serveFinish (jobId : ℕ) (jobPri : ℕ)
deriving DecidableEq, Repr

/-- Modelled from the spec: a pending timed resumption of the clock and
event scheduler (simpy is not part of src/).  Section 4.1: an ordered set
of pending resumptions; eid is the scheduling sequence number that makes
ties at one instant FIFO deterministic. -/
structure Event where
  time : Time
  eid : ℕ
  proc : Proc
deriving DecidableEq, Repr

/-- Modelled from the spec: the order in which the scheduler fires pending
resumptions (section 4.1) - non-decreasing time, ties resolved by
scheduling order. -/
def evLe (a b : Event) : Prop :=
  a.time < b.time ∨ (a.time = b.time ∧ a.eid ≤ b.eid)

instance : DecidableRel evLe := fun a b => by
  unfold evLe; infer_instance

/-- The full state of the simulation: the clock and pending events
(scheduler), the PriorityQueue heap and busy flag, the SimQueue job_id
counter, the total_jobs dictionary, the position in the random stream, and
observation traces (requests issued to the sampler, dispatch order of jobs
handed to the Server, order of exit_time writes, failure flag). -/
structure SimState where
  now : Time
  events : List Event
  nextEid : ℕ
  heap : List HeapEntry
  busy : Bool
  jobId : ℕ
  store : List (ℕ × Record)
  rngIdx : ℕ
  reqs : List Request
  dispatched : List ℕ
  exitWrites : List ℕ
  error : Bool
deriving Repr

/-- The configuration of simulate_queue: arrival_rates, service_rate, and
the seeded random source, abstracted as the stream of durations it will
return. -/
structure Config where
  rates : List Time
  svc : Time
  rng : ℕ → Time

/-- Draw the next value from the random stream, recording which
distribution and parameter the engine requested. -/
def sample (cfg : Config) (s : SimState) (req : Request) : Time × SimState :=
  (cfg.rng s.rngIdx, { s with rngIdx := s.rngIdx + 1, reqs := s.reqs ++ [req] })

/-- Modelled from the spec: env.timeout(d) of the scheduler (simpy is not
in src/).  Section 4.1: schedule a resumption of proc after duration d;
advancing by a negative duration is a programming error and fails fast.
A zero duration is accepted and schedules the resumption at the current
instant. -/
def timeout (s : SimState) (d : Time) (p : Proc) : SimState :=
  if d < 0 then { s with error := true }
  else
    { s with
      events := List.orderedInsert evLe ⟨s.now + d, s.nextEid, p⟩ s.events
      nextEid := s.nextEid + 1 }

/-- Modelled from the spec: env.process(...) of the scheduler (simpy is not
in src/).  Registering a new logical process schedules its first resumption
at the current instant, after everything already scheduled there. -/
def spawn (s : SimState) (p : Proc) : SimState :=
  { s with
    events := List.orderedInsert evLe ⟨s.now, s.nextEid, p⟩ s.events
    nextEid := s.nextEid + 1 }

/-- One full pass of the PriorityQueue.start while loop body chain: the
Python generator only suspends in the empty-queue branch, so a single
resumption pops every queued job, spawning a Server.serve process for each,
and only then clears busy and waits one time unit.  Fuel is the heap length
plus one, enough for the loop to reach the empty case. -/
def queueStartLoop (cfg : Config) : ℕ → SimState → SimState
  | 0, s => s
  | fuel + 1, s =>
    match heappop entryLt s.heap with
    | none => timeout { s with busy := false } 1 .queueStart
    | some (e, rest) =>
      queueStartLoop cfg fuel
        (spawn
          { s with
            busy := true
            heap := rest
            dispatched := s.dispatched ++ [e.jobId] }
          (.serveBegin e.jobId e.jobPri))

/-- Resume one logical process and run it until its next suspension,
mirroring the bodies of generate_jobs, process_jobs, PriorityQueue.start
and Server.serve. -/
def resume (cfg : Config) (s : SimState) : Proc → SimState
  | .genFirst c =>
    let r := sample cfg s (.poisson (cfg.rates.getD c 0))
    timeout r.2 r.1 (.genArrive c)
  | .genArrive c =>
    let id := s.jobId + 1
    let s :=
      { s with
        jobId := id
        heap := heappush entryLt s.heap ⟨c, id, c⟩
        store := storeInsert s.store id ⟨c, s.now, none⟩ }
    let r := sample cfg s (.poisson (cfg.rates.getD c 0))
    timeout r.2 r.1 (.genArrive c)
  | .processJobs =>
    let s := if !s.busy && !s.heap.isEmpty then spawn s .queueStart else s
    timeout s 1 .processJobs
  | .queueStart => queueStartLoop cfg (s.heap.length + 1) s
  | .serveBegin id pri =>
    let r := sample cfg s (.exponential cfg.svc)
    timeout r.2 r.1 (.serveFinish id pri)
  | .serveFinish id _pri =>
    match storeLookup s.store id with
    | some r =>
      { s with
        store := storeInsert s.store id { r with exit := some s.now }
        exitWrites := s.exitWrites ++ [id] }
    -- total_jobs[job.id] is read before being merged; a missing key would
    -- raise KeyError in Python and abort the run.
    | none => { s with error := true }

/-- Modelled from the spec: one step of env.run(until) (simpy is not in
src/).  Section 4.1: fire the earliest pending resumption as long as the
clock has not reached the horizon; halt - leaving pending processes
suspended - once it has, or when a process failed. -/
def step (cfg : Config) (horizon : Time) (s : SimState) : Option SimState :=
  if s.error then none
  else
    match s.events with
    | [] => none
    | e :: rest =>
      if e.time < horizon then some (resume cfg { s with now := e.time, events := rest } e.proc)
      else none

/-- Modelled from the spec: env.run(until), iterated up to fuel scheduler
steps (the Python run is unbounded; every theorem below holds for every
fuel). -/
def runFor (cfg : Config) (horizon : Time) : ℕ → SimState → SimState
  | 0, s => s
  | fuel + 1, s =>
    match step cfg horizon s with
    | none => s
    | some s' => runFor cfg horizon fuel s'

/-- The processes registered by SimQueue.__init__: for each priority class
i in order, env.process(self.generate_jobs(i)) and then
env.process(self.process_jobs()). -/
def initEvents : ℕ → List Event
  | 0 => []
  | n + 1 => initEvents n ++ [⟨0, 2 * n, .genFirst n⟩, ⟨0, 2 * n + 1, .processJobs⟩]

/-- The state built by SimQueue.__init__ for n priority classes. -/
def initState (n : ℕ) : SimState :=
  { now := 0
    events := initEvents n
    nextEid := 2 * n
    heap := []
    busy := false
    jobId := 0
    store := []
    rngIdx := 0
    reqs := []
    dispatched := []
    exitWrites := []
    error := false }

/-- simulate_queue(arrival_rates, service_rate, until): build the SimQueue
and run the environment to the horizon.  The random collaborator is the
stream rng; fuel bounds the number of scheduler steps. -/
def simulate_queue (arrival_rates : List Time) (service_rate : Time) (horizon : Time)
    (rng : ℕ → Time) (fuel : ℕ) : SimState :=
  runFor ⟨arrival_rates, service_rate, rng⟩ horizon fuel (initState arrival_rates.length)

/-- Number of service activities in flight: Server.serve processes that
have sampled their duration and are waiting for the service timeout. -/
def inFlightServes (s : SimState) : ℕ :=
  s.events.countP fun e =>
    match e.proc with
    | .serveFinish _ _ => true
    | _ => false

/-- The job id a pending process owns, when it is a Server.serve stage. -/
def procServeId : Proc → Option ℕ
  | .serveBegin id _ => some id
  | .serveFinish id _ => some id
  | _ => none

/-- Job ids named by pending Server.serve processes (either stage). -/
def serveIds (evs : List Event) : List ℕ :=
  evs.filterMap fun e => procServeId e.proc

/-- Job ids of the entries waiting in the PriorityQueue heap. -/
def heapIds (h : List HeapEntry) : List ℕ := h.map HeapEntry.jobId

/-- A concrete random stream: class 0 first samples interarrival 1, class 1
samples 0 then 0 then 9, class 0 samples 9, and the three service times
are 1 each. -/
def rngA : ℕ → Time := fun n => ([1, 0, 0, 9, 9, 1, 1, 1] : List Time).getD n 0

/-- A concrete random stream for a one-class run whose single job arrives
at time 3/2, between dispatch polling ticks. -/
def rngB : ℕ → Time := fun n => ([3/2, 9] : List Time).getD n 0

/-- A Request is either a poisson one or an exponential request whose scale
is exactly the given service rate. -/
def expScaleOk (svc : Time) (q : Request) : Prop :=
  ∀ x, q = Request.exponential x → x = svc

/-- The run invariant of the engine, maintained by every scheduler step:
pending events are sorted by firing order and never lie in the past; every
recorded arrival lies in the past; recorded departures never precede their
arrivals; the ids waiting in the heap, the ids owned by pending serve
processes and the ids whose exit_time was already written are pairwise
disjoint lists without duplicates, all bounded by the job counter; and
every entry still waiting in the heap has an arrival-only record with its
priority class. -/
structure Inv (s : SimState) : Prop where
  sorted : s.events.Sorted evLe
  lb : ∀ e ∈ s.events, s.now ≤ e.time
  enterLB : ∀ id r, storeLookup s.store id = some r → r.enter ≤ s.now
  exitGe : ∀ id r t, storeLookup s.store id = some r → r.exit = some t → r.enter ≤ t
  heapNodup : (heapIds s.heap).Nodup
  servesNodup : (serveIds s.events).Nodup
  writesNodup : s.exitWrites.Nodup
  heapLe : ∀ id ∈ heapIds s.heap, id ≤ s.jobId
  servesLe : ∀ id ∈ serveIds s.events, id ≤ s.jobId
  writesLe : ∀ id ∈ s.exitWrites, id ≤ s.jobId
  disjHS : ∀ id ∈ heapIds s.heap, id ∉ serveIds s.events
  disjHW : ∀ id ∈ heapIds s.heap, id ∉ s.exitWrites
  disjSW : ∀ id ∈ serveIds s.events, id ∉ s.exitWrites
  heapRecord : ∀ e ∈ s.heap, ∃ r, storeLookup s.store e.jobId = some r ∧
    r.exit = none ∧ r.priority = e.pri

instance : IsTotal Event evLe where
  total a b := by
    unfold evLe
    rcases lt_trichotomy a.time b.time with h | h | h
    · exact Or.inl (Or.inl h)
    · rcases Nat.le_total a.eid b.eid with h2 | h2
      · exact Or.inl (Or.inr ⟨h, h2⟩)
      · exact Or.inr (Or.inr ⟨h.symm, h2⟩)
    · exact Or.inr (Or.inl h)

instance : IsTrans Event evLe where
  trans a b c hab hbc := by
    unfold evLe at *
    rcases hab with h1 | ⟨h1, h1e⟩ <;> rcases hbc with h2 | ⟨h2, h2e⟩
    · exact Or.inl (h1.trans h2)
    · exact Or.inl (h2 ▸ h1)
    · exact Or.inl (h1 ▸ h2)
    · exact Or.inr ⟨h1.trans h2, h1e.trans h2e⟩

end QueuingSim

namespace QueuingSim

/-! Basic facts about the registration list built by SimQueue.__init__. -/

theorem initEvents_time_eq_zero (n : ℕ) : ∀ e ∈ initEvents n, e.time = 0 := by
  induction n with
  | zero => intro e he; simp [initEvents] at he
  | succ m ih =>
    intro e he
    simp only [initEvents, List.mem_append, List.mem_cons, List.not_mem_nil, or_false] at he
    rcases he with h | h | h
    · exact ih e h
    · subst h; rfl
    · subst h; rfl

theorem step_initState_zero (cfg : Config) (n : ℕ) : step cfg 0 (initState n) = none := by
  unfold step initState
  simp only [Bool.false_eq_true, if_false]
  cases h : initEvents n with
  | nil => rfl
  | cons e rest =>
    have he : e.time = 0 := initEvents_time_eq_zero n e (h ▸ List.mem_cons_self e rest)
    simp [he]

theorem runFor_zero_horizon (cfg : Config) (n fuel : ℕ) :
    runFor cfg 0 fuel (initState n) = initState n := by
  cases fuel with
  | zero => rfl
  | succ m => unfold runFor; rw [step_initState_zero]

/-- Claim C6: running the simulation with horizon 0 produces zero Result
Records, completes immediately and raises no error: the run halts before
firing any event, so total_jobs stays empty and the failure flag stays
clear. -/
theorem C6_horizon_zero (rates : List Time) (svc : Time) (rng : ℕ → Time) (fuel : ℕ) :
    (simulate_queue rates svc 0 rng fuel).store = [] ∧
    (simulate_queue rates svc 0 rng fuel).error = false := by
  unfold simulate_queue
  rw [runFor_zero_horizon]
  exact ⟨rfl, rfl⟩

theorem initEvents_gen_classes (n : ℕ) :
    ((initEvents n).filterMap fun e =>
      match e.proc with
      | .genFirst c => some c
      | _ => none) = List.range n := by
  induction n with
  | zero => rfl
  | succ m ih =>
    simp only [initEvents, List.filterMap_append, ih, List.range_succ]
    rfl

theorem initEvents_dispatch_count (n : ℕ) :
    ((initEvents n).countP fun e => decide (e.proc = .processJobs)) = n := by
  induction n with
  | zero => rfl
  | succ m ih =>
    simp only [initEvents, List.countP_append, ih]
    rfl

/-- Claim C10: for an arrival_rates vector of length n, SimQueue.__init__
registers n arrival generators (one per class, in class order) and also n
separate copies of the process_jobs dispatch loop, not a single dispatch
loop. -/
theorem C10_init_processes (rates : List Time) :
    ((initState rates.length).events.filterMap fun e =>
      match e.proc with
      | .genFirst c => some c
      | _ => none) = List.range rates.length ∧
    ((initState rates.length).events.countP fun e => decide (e.proc = .processJobs)) =
      rates.length :=
  ⟨initEvents_gen_classes rates.length, initEvents_dispatch_count rates.length⟩

/-- Claim C3: the engine is deterministic: two runs with the same
configuration and the same random stream produce the same final state,
Result Records included. -/
theorem C3_deterministic (rates : List Time) (svc horizon : Time)
    (rng₁ rng₂ : ℕ → Time) (fuel : ℕ) (h : ∀ k, rng₁ k = rng₂ k) :
    simulate_queue rates svc horizon rng₁ fuel =
      simulate_queue rates svc horizon rng₂ fuel := by
  rw [funext h]

theorem C3_deterministic_witness :
    simulate_queue [1, 1] 1 2 rngA 30 = simulate_queue [1, 1] 1 2 rngA 30 :=
  C3_deterministic [1, 1] 1 2 rngA rngA 30 fun _ => rfl

unseal Rat.add Rat.mul Rat.inv in
/-- Claim C1, evaluation at the failing input: with two classes, a class-1
job arriving at time 0 twice (zero interarrival) and a class-0 job at time
1, the single activation of PriorityQueue.start at time 1 pops all three
jobs and spawns three concurrent Server.serve activities: three service
processes are in flight at once, violating the one-job-in-service
invariant. -/
theorem C1_three_concurrent_serves :
    inFlightServes (simulate_queue [1, 1] 1 2 rngA 30) = 3 := by decide

unseal Rat.add Rat.mul Rat.inv in
/-- Claim C2, counterexample: jobs 1 and 2 both have class 1 and are both
admitted at instant 0 (creation order 1 before 2), yet the dispatch order
is [3, 2, 1]: job 2 is handed to the Server before job 1, so equal-class
jobs are not served in admission order and the creation-sequence tie-break
does not exist. -/
theorem C2_fifo_counterexample :
    (simulate_queue [1, 1] 1 2 rngA 30).dispatched = [3, 2, 1] ∧
    storeLookup (simulate_queue [1, 1] 1 2 rngA 30).store 1 = some ⟨1, 0, none⟩ ∧
    storeLookup (simulate_queue [1, 1] 1 2 rngA 30).store 2 = some ⟨1, 0, none⟩ :=
  ⟨by decide, by decide, by decide⟩

/-- Claim C2, amended: the queue orders waiting entries by priority class
only: the pushed tuples compare through Job.__lt__, which ignores identity,
arrival instant and creation sequence, so equal-class entries are never
ordered by the comparison and extraction among them follows the heap array
layout, not admission order. -/
theorem C2_amended_class_only (e f : HeapEntry)
    (he : e.jobPri = e.pri) (hf : f.jobPri = f.pri) :
    entryLt e f = decide (e.pri < f.pri) := by
  simp only [entryLt, jobLt, he, hf]
  rcases Nat.lt_trichotomy e.pri f.pri with h | h | h
  · simp [h]
  · simp [h]
  · simp [Nat.lt_asymm h, Nat.ne_of_gt h]

theorem C2_amended_class_only_witness : entryLt ⟨1, 1, 1⟩ ⟨1, 2, 1⟩ = false :=
  (C2_amended_class_only ⟨1, 1, 1⟩ ⟨1, 2, 1⟩ rfl rfl).trans (by decide)

unseal Rat.add Rat.mul Rat.inv in
/-- Claim C7, counterexample: the stream rngA returns the non-positive
duration 0 for the second and third interarrival samples; the engine
consumes all eight samples without any failure and admits job 2 at the very
instant of job 1 (simulated time silently advanced by zero), so non-positive
sampled durations are not rejected at the sampling boundary. -/
theorem C7_zero_duration_accepted :
    rngA 1 = 0 ∧ rngA 2 = 0 ∧
    (simulate_queue [1, 1] 1 2 rngA 30).error = false ∧
    (simulate_queue [1, 1] 1 2 rngA 30).rngIdx = 8 ∧
    storeLookup (simulate_queue [1, 1] 1 2 rngA 30).store 1 = some ⟨1, 0, none⟩ ∧
    storeLookup (simulate_queue [1, 1] 1 2 rngA 30).store 2 = some ⟨1, 0, none⟩ :=
  ⟨by decide, by decide, by decide, by decide, by decide, by decide⟩

/-- Claim C7, amended: no validation happens at the sampling boundary: every
non-negative sampled duration, zero included, is accepted as-is and
schedules the resumption exactly that much later (zero advances simulated
time by zero); only the scheduler-level fail-fast on negative durations of
spec section 4.1 applies. -/
theorem C7_amended_no_boundary_check (s : SimState) (d : Time) (p : Proc) (h : 0 ≤ d) :
    (timeout s d p).error = s.error ∧
    (⟨s.now + d, s.nextEid, p⟩ : Event) ∈ (timeout s d p).events := by
  unfold timeout
  rw [if_neg (not_lt.mpr h)]
  exact ⟨rfl, by simp [List.mem_orderedInsert]⟩

theorem C7_amended_no_boundary_check_witness :
    (0 : Time) ≤ 0 ∧
    ((timeout (initState 1) 0 .processJobs).error = (initState 1).error ∧
      (⟨(initState 1).now + 0, (initState 1).nextEid, .processJobs⟩ : Event) ∈
        (timeout (initState 1) 0 .processJobs).events) :=
  ⟨le_refl 0, C7_amended_no_boundary_check (initState 1) 0 .processJobs (le_refl 0)⟩

/-! Permutation facts about in-place list updates, used to show that the
heapq routines only rearrange the array. -/

theorem cons_getD_set_perm {α : Type _} [Inhabited α] (t : List α) :
    ∀ (m : ℕ), m < t.length → ∀ (x : α),
      (t.getD m default :: t.set m x).Perm (x :: t) := by
  induction t with
  | nil => intro m hm; simp at hm
  | cons a t0 ih =>
    intro m hm x
    cases m with
    | zero => exact List.Perm.swap x a t0
    | succ n =>
      have hn : n < t0.length := Nat.lt_of_succ_lt_succ hm
      have h1 : (t0.getD n default :: a :: t0.set n x).Perm
          (a :: t0.getD n default :: t0.set n x) := List.Perm.swap _ _ _
      have h2 : (a :: t0.getD n default :: t0.set n x).Perm (a :: x :: t0) :=
        (ih n hn x).cons a
      have h3 : (a :: x :: t0).Perm (x :: a :: t0) := List.Perm.swap _ _ _
      exact (h1.trans h2).trans h3

theorem cons_set_swap_perm {α : Type _} (t : List α) :
    ∀ (m : ℕ), m < t.length → ∀ (a x : α), (x :: t.set m a).Perm (a :: t.set m x) := by
  induction t with
  | nil => intro m hm; simp at hm
  | cons b t0 ih =>
    intro m hm a x
    cases m with
    | zero => exact List.Perm.swap a x t0
    | succ n =>
      have hn : n < t0.length := Nat.lt_of_succ_lt_succ hm
      have h1 : (x :: b :: t0.set n a).Perm (b :: x :: t0.set n a) := List.Perm.swap _ _ _
      have h2 : (b :: x :: t0.set n a).Perm (b :: a :: t0.set n x) := (ih n hn a x).cons b
      have h3 : (b :: a :: t0.set n x).Perm (a :: b :: t0.set n x) := List.Perm.swap _ _ _
      exact (h1.trans h2).trans h3

theorem set_set_perm {α : Type _} [Inhabited α] (l : List α) :
    ∀ (i j : ℕ), i < l.length → j < l.length → i ≠ j → ∀ (x : α),
      ((l.set i (l.getD j default)).set j x).Perm (l.set i x) := by
  induction l with
  | nil => intro i j hi; simp at hi
  | cons a t ih =>
    intro i j hi hj hne x
    cases i with
    | zero =>
      cases j with
      | zero => exact absurd rfl hne
      | succ m => exact cons_getD_set_perm t m (Nat.lt_of_succ_lt_succ hj) x
    | succ n =>
      cases j with
      | zero => exact cons_set_swap_perm t n (Nat.lt_of_succ_lt_succ hi) a x
      | succ m =>
        exact (ih n m (Nat.lt_of_succ_lt_succ hi) (Nat.lt_of_succ_lt_succ hj)
          (fun h => hne (congrArg Nat.succ h)) x).cons a

theorem set_getD_self {α : Type _} [Inhabited α] (l : List α) :
    ∀ (i : ℕ), i < l.length → l.set i (l.getD i default) = l := by
  induction l with
  | nil => intro i hi; simp at hi
  | cons a t ih =>
    intro i hi
    cases i with
    | zero => rfl
    | succ n =>
      have := ih n (Nat.lt_of_succ_lt_succ hi)
      simpa [List.set] using congrArg (List.cons a) this

/-! The heapq routines permute the array: _siftdown and _siftup shift the
elements along a path and re-insert the distinguished item at the final
position. -/

theorem siftdownLoop_spec (lt : HeapEntry → HeapEntry → Bool) (sp : ℕ) (x : HeapEntry) :
    ∀ (fuel : ℕ) (heap : List HeapEntry) (pos : ℕ), pos < heap.length →
      (siftdownLoop lt sp x fuel heap pos).1.length = heap.length ∧
      (siftdownLoop lt sp x fuel heap pos).2 < heap.length ∧
      ((siftdownLoop lt sp x fuel heap pos).1.set (siftdownLoop lt sp x fuel heap pos).2 x).Perm
        (heap.set pos x) := by
  intro fuel
  induction fuel with
  | zero => intro heap pos h; exact ⟨rfl, h, List.Perm.refl _⟩
  | succ n ih =>
    intro heap pos h
    by_cases h1 : sp < pos
    · by_cases h2 : lt x (heap.getD ((pos - 1) / 2) default)
      · have hpp : (pos - 1) / 2 < pos := by
          have h0 : 0 < pos := Nat.lt_of_le_of_lt (Nat.zero_le sp) h1
          have : (pos - 1) / 2 ≤ pos - 1 := Nat.div_le_self _ _
          omega
        have hstep :
            siftdownLoop lt sp x (n + 1) heap pos =
            siftdownLoop lt sp x n (heap.set pos (heap.getD ((pos - 1) / 2) default))
              ((pos - 1) / 2) := by
          simp only [siftdownLoop, if_pos h1, if_pos h2]
        have hlen : (pos - 1) / 2 < (heap.set pos (heap.getD ((pos - 1) / 2) default)).length := by
          rw [List.length_set]; exact lt_trans hpp h
        obtain ⟨l1, l2, l3⟩ := ih (heap.set pos (heap.getD ((pos - 1) / 2) default)) _ hlen
        rw [hstep]
        refine ⟨by rw [l1, List.length_set], by rw [List.length_set] at l2; exact l2, ?_⟩
        refine l3.trans ?_
        exact set_set_perm heap pos ((pos - 1) / 2) h (lt_trans hpp h) (Nat.ne_of_gt hpp) x
      · have hstep : siftdownLoop lt sp x (n + 1) heap pos = (heap, pos) := by
          simp only [siftdownLoop, if_pos h1, if_neg h2]
        rw [hstep]
        exact ⟨rfl, h, List.Perm.refl _⟩
    · have hstep : siftdownLoop lt sp x (n + 1) heap pos = (heap, pos) := by
        simp only [siftdownLoop, if_neg h1]
      rw [hstep]
      exact ⟨rfl, h, List.Perm.refl _⟩

theorem siftdown_perm (lt : HeapEntry → HeapEntry → Bool) (heap : List HeapEntry)
    (sp pos : ℕ) (h : pos < heap.length) : (siftdown lt heap sp pos).Perm heap := by
  unfold siftdown
  obtain ⟨l1, l2, l3⟩ := siftdownLoop_spec lt sp (heap.getD pos default) (pos + 1) heap pos h
  exact l3.trans (List.Perm.of_eq (set_getD_self heap pos h))

theorem siftdown_length (lt : HeapEntry → HeapEntry → Bool) (heap : List HeapEntry)
    (sp pos : ℕ) (h : pos < heap.length) : (siftdown lt heap sp pos).length = heap.length :=
  (siftdown_perm lt heap sp pos h).length_eq

theorem siftupLoop_spec (lt : HeapEntry → HeapEntry → Bool) (endpos : ℕ) (x : HeapEntry) :
    ∀ (fuel : ℕ) (heap : List HeapEntry) (pos : ℕ), pos < heap.length → endpos ≤ heap.length →
      (siftupLoop lt endpos fuel heap pos).1.length = heap.length ∧
      (siftupLoop lt endpos fuel heap pos).2 < heap.length ∧
      ((siftupLoop lt endpos fuel heap pos).1.set (siftupLoop lt endpos fuel heap pos).2 x).Perm
        (heap.set pos x) := by
  intro fuel
  induction fuel with
  | zero => intro heap pos h _; exact ⟨rfl, h, List.Perm.refl _⟩
  | succ n ih =>
    intro heap pos h hend
    by_cases h1 : 2 * pos + 1 < endpos
    · set cp := if (2 * pos + 1 + 1 < endpos &&
        !(lt (heap.getD (2 * pos + 1) default) (heap.getD (2 * pos + 1 + 1) default))) then
          2 * pos + 1 + 1 else 2 * pos + 1 with hcp
      have hcpbig : pos < cp := by
        rw [hcp]; split <;> omega
      have hcplt : cp < endpos := by
        rw [hcp]; split
        · next hsplit => exact (Bool.and_eq_true _ _ ▸ hsplit).1 |> of_decide_eq_true
        · exact h1
      have hstep :
          siftupLoop lt endpos (n + 1) heap pos =
          siftupLoop lt endpos n (heap.set pos (heap.getD cp default)) cp := by
        simp only [siftupLoop, if_pos h1]
      have hcpl : cp < (heap.set pos (heap.getD cp default)).length := by
        rw [List.length_set]; exact lt_of_lt_of_le hcplt hend
      obtain ⟨l1, l2, l3⟩ := ih (heap.set pos (heap.getD cp default)) cp hcpl
        (by rw [List.length_set]; exact hend)
      rw [hstep]
      refine ⟨by rw [l1, List.length_set], by rw [List.length_set] at l2; exact l2, ?_⟩
      refine l3.trans ?_
      exact set_set_perm heap pos cp h (lt_of_lt_of_le hcplt hend) (Nat.ne_of_lt hcpbig) x
    · have hstep : siftupLoop lt endpos (n + 1) heap pos = (heap, pos) := by
        simp only [siftupLoop, if_neg h1]
      rw [hstep]
      exact ⟨rfl, h, List.Perm.refl _⟩

theorem siftup_perm (lt : HeapEntry → HeapEntry → Bool) (heap : List HeapEntry)
    (pos : ℕ) (h : pos < heap.length) : (siftup lt heap pos).Perm heap := by
  unfold siftup
  obtain ⟨l1, l2, l3⟩ :=
    siftupLoop_spec lt heap.length (heap.getD pos default) (heap.length + 1) heap pos h le_rfl
  have hmid :
      ((siftupLoop lt heap.length (heap.length + 1) heap pos).1.set
        (siftupLoop lt heap.length (heap.length + 1) heap pos).2
        (heap.getD pos default)).Perm heap :=
    l3.trans (List.Perm.of_eq (set_getD_self heap pos h))
  have hlen2 :
      (siftupLoop lt heap.length (heap.length + 1) heap pos).2 <
      ((siftupLoop lt heap.length (heap.length + 1) heap pos).1.set
        (siftupLoop lt heap.length (heap.length + 1) heap pos).2
        (heap.getD pos default)).length := by
    rw [List.length_set, l1]; exact l2
  exact (siftdown_perm lt _ pos _ hlen2).trans hmid

theorem heappush_perm (lt : HeapEntry → HeapEntry → Bool) (heap : List HeapEntry)
    (item : HeapEntry) : (heappush lt heap item).Perm (item :: heap) := by
  unfold heappush
  have hlen : (heap ++ [item]).length - 1 < (heap ++ [item]).length := by
    rw [List.length_append]; simp
  exact (siftdown_perm lt (heap ++ [item]) 0 _ hlen).trans
    (List.perm_append_singleton item heap)

theorem heappop_perm (lt : HeapEntry → HeapEntry → Bool) (heap : List HeapEntry)
    (x : HeapEntry) (rest : List HeapEntry) (h : heappop lt heap = some (x, rest)) :
    (x :: rest).Perm heap := by
  unfold heappop at h
  cases hl : heap.getLast? with
  | none => rw [hl] at h; exact absurd h (by simp)
  | some lastelt =>
    rw [hl] at h
    have hne : heap ≠ [] := by
      intro hnil; rw [hnil] at hl; exact absurd hl (by simp)
    have hsplit : heap.dropLast ++ [lastelt] = heap := List.dropLast_append_getLast? lastelt hl
    cases hd : heap.dropLast with
    | nil =>
      rw [hd] at h
      simp only [Option.some.injEq, Prod.mk.injEq] at h
      obtain ⟨hx, hr⟩ := h
      subst hx; subst hr
      rw [hd] at hsplit
      simp [← hsplit]
    | cons y ys =>
      rw [hd] at h
      simp only [Option.some.injEq, Prod.mk.injEq] at h
      obtain ⟨hx, hr⟩ := h
      subst hx
      have hsp : (siftup lt ((y :: ys).set 0 lastelt) 0).Perm (lastelt :: ys) := by
        have h0 : (0 : ℕ) < ((y :: ys).set 0 lastelt).length := by simp
        simpa using siftup_perm lt ((y :: ys).set 0 lastelt) 0 h0
      have p1 : (y :: rest).Perm (y :: lastelt :: ys) := by
        rw [← hr]; exact List.Perm.cons y hsp
      have p2 : (y :: lastelt :: ys).Perm (lastelt :: y :: ys) := List.Perm.swap _ _ _
      have p3 : (lastelt :: y :: ys).Perm ((y :: ys) ++ [lastelt]) :=
        (List.perm_append_singleton _ _).symm
      have p4 : ((y :: ys) ++ [lastelt] : List HeapEntry).Perm heap := by
        rw [hd] at hsplit; rw [hsplit]
      exact ((p1.trans p2).trans p3).trans p4

theorem heappop_length (lt : HeapEntry → HeapEntry → Bool) (heap : List HeapEntry)
    (x : HeapEntry) (rest : List HeapEntry) (h : heappop lt heap = some (x, rest)) :
    rest.length + 1 = heap.length := by
  have := (heappop_perm lt heap x rest h).length_eq
  simpa using this

/-! Facts about the total_jobs dictionary operations. -/

theorem storeLookup_insert_self (st : List (ℕ × Record)) (id : ℕ) (v : Record) :
    storeLookup (storeInsert st id v) id = some v := by
  induction st with
  | nil => simp [storeInsert, storeLookup]
  | cons p rest ih =>
    obtain ⟨k, w⟩ := p
    by_cases h : k = id
    · simp [storeInsert, h, storeLookup]
    · simp [storeInsert, h, storeLookup, ih]

theorem storeLookup_insert_ne (st : List (ℕ × Record)) (id id' : ℕ) (v : Record)
    (h : id' ≠ id) : storeLookup (storeInsert st id v) id' = storeLookup st id' := by
  induction st with
  | nil => simp [storeInsert, storeLookup, Ne.symm h]
  | cons p rest ih =>
    obtain ⟨k, w⟩ := p
    by_cases hk : k = id
    · subst hk
      simp [storeInsert, storeLookup, Ne.symm h]
    · simp [storeInsert, hk, storeLookup, ih]

/-! Facts about the serve-process id trace of the pending event list. -/

theorem serveIds_cons (e : Event) (evs : List Event) :
    serveIds (e :: evs) = (procServeId e.proc).toList ++ serveIds evs := by
  cases h : procServeId e.proc <;> simp [serveIds, List.filterMap_cons, h]

theorem serveIds_perm {evs₁ evs₂ : List Event} (h : evs₁.Perm evs₂) :
    (serveIds evs₁).Perm (serveIds evs₂) := h.filterMap _

theorem serveIds_orderedInsert (e : Event) (evs : List Event) :
    (serveIds (List.orderedInsert evLe e evs)).Perm
      ((procServeId e.proc).toList ++ serveIds evs) := by
  have h := serveIds_perm (List.perm_orderedInsert evLe e evs)
  rw [serveIds_cons] at h
  exact h

/-! The exponential-request invariant behind claim C8: every request the
engine sends to the random collaborator is either a poisson request or an
exponential request with scale exactly the configured service rate. -/

theorem reqs_timeout (s : SimState) (d : Time) (p : Proc) : (timeout s d p).reqs = s.reqs := by
  unfold timeout; split <;> rfl

theorem reqs_spawn (s : SimState) (p : Proc) : (spawn s p).reqs = s.reqs := rfl

theorem reqs_queueStartLoop (cfg : Config) :
    ∀ (fuel : ℕ) (s : SimState), (queueStartLoop cfg fuel s).reqs = s.reqs := by
  intro fuel
  induction fuel with
  | zero => intro s; rfl
  | succ n ih =>
    intro s
    unfold queueStartLoop
    cases h : heappop entryLt s.heap with
    | none => exact reqs_timeout _ _ _
    | some pr => exact ih _

theorem resume_reqs_ok (cfg : Config) (s : SimState) (p : Proc)
    (h : ∀ q ∈ s.reqs, expScaleOk cfg.svc q) :
    ∀ q ∈ (resume cfg s p).reqs, expScaleOk cfg.svc q := by
  cases p with
  | genFirst c =>
    intro q hq
    simp only [resume, reqs_timeout, sample] at hq
    rcases List.mem_append.mp hq with h1 | h1
    · exact h q h1
    · intro x hx
      rw [List.mem_singleton.mp h1] at hx
      exact absurd hx (by simp)
  | genArrive c =>
    intro q hq
    simp only [resume, reqs_timeout, sample] at hq
    rcases List.mem_append.mp hq with h1 | h1
    · exact h q h1
    · intro x hx
      rw [List.mem_singleton.mp h1] at hx
      exact absurd hx (by simp)
  | processJobs =>
    intro q hq
    simp only [resume, reqs_timeout] at hq
    split at hq <;> exact h q hq
  | queueStart =>
    intro q hq
    simp only [resume, reqs_queueStartLoop] at hq
    exact h q hq
  | serveBegin id pri =>
    intro q hq
    simp only [resume, reqs_timeout, sample] at hq
    rcases List.mem_append.mp hq with h1 | h1
    · exact h q h1
    · intro x hx
      rw [List.mem_singleton.mp h1] at hx
      exact (Request.exponential.inj hx).symm
  | serveFinish id pri =>
    intro q hq
    simp only [resume] at hq
    split at hq <;> exact h q hq

theorem step_reqs_ok {cfg : Config} {horizon : Time} {s s' : SimState}
    (hstep : step cfg horizon s = some s')
    (h : ∀ q ∈ s.reqs, expScaleOk cfg.svc q) : ∀ q ∈ s'.reqs, expScaleOk cfg.svc q := by
  unfold step at hstep
  split at hstep
  · exact absurd hstep (by simp)
  · split at hstep
    · exact absurd hstep (by simp)
    · split at hstep
      · injection hstep with hs
        subst hs
        exact resume_reqs_ok cfg _ _ h
      · exact absurd hstep (by simp)

theorem runFor_reqs_ok (cfg : Config) (horizon : Time) :
    ∀ (fuel : ℕ) (s : SimState), (∀ q ∈ s.reqs, expScaleOk cfg.svc q) →
      ∀ q ∈ (runFor cfg horizon fuel s).reqs, expScaleOk cfg.svc q := by
  intro fuel
  induction fuel with
  | zero => intro s h; exact h
  | succ n ih =>
    intro s h
    unfold runFor
    cases hstep : step cfg horizon s with
    | none => exact h
    | some s' => exact ih s' (step_reqs_ok hstep h)

/-- Claim C8: every service-duration request the engine issues to the
random collaborator during a run is an exponential request whose scale
(mean) parameter is exactly the service_rate argument of simulate_queue. -/
theorem C8_exponential_scale (rates : List Time) (svc horizon : Time) (rng : ℕ → Time)
    (fuel : ℕ) (x : Time)
    (h : Request.exponential x ∈ (simulate_queue rates svc horizon rng fuel).reqs) :
    x = svc := by
  have hall := runFor_reqs_ok ⟨rates, svc, rng⟩ horizon fuel (initState rates.length)
    (by intro q hq; exact absurd hq (by simp [initState]))
  exact hall _ h x rfl

unseal Rat.add Rat.mul Rat.inv in
theorem C8_exponential_scale_witness :
    Request.exponential 1 ∈ (simulate_queue [1, 1] 1 2 rngA 30).reqs ∧ (1 : Time) = 1 :=
  ⟨by decide, C8_exponential_scale [1, 1] 1 2 rngA 30 1 (by decide)⟩

/-! Preservation of the run invariant by the primitive state transitions. -/

theorem evLe_time {a b : Event} (h : evLe a b) : a.time ≤ b.time := by
  rcases h with h | ⟨h, _⟩
  · exact le_of_lt h
  · exact le_of_eq h

theorem inv_update_busy (s : SimState) (b : Bool) (h : Inv s) : Inv { s with busy := b } :=
  ⟨h.sorted, h.lb, h.enterLB, h.exitGe, h.heapNodup, h.servesNodup, h.writesNodup,
    h.heapLe, h.servesLe, h.writesLe, h.disjHS, h.disjHW, h.disjSW, h.heapRecord⟩

theorem inv_error (s : SimState) (h : Inv s) : Inv { s with error := true } :=
  ⟨h.sorted, h.lb, h.enterLB, h.exitGe, h.heapNodup, h.servesNodup, h.writesNodup,
    h.heapLe, h.servesLe, h.writesLe, h.disjHS, h.disjHW, h.disjSW, h.heapRecord⟩

theorem inv_sample (cfg : Config) (s : SimState) (req : Request) (h : Inv s) :
    Inv (sample cfg s req).2 :=
  ⟨h.sorted, h.lb, h.enterLB, h.exitGe, h.heapNodup, h.servesNodup, h.writesNodup,
    h.heapLe, h.servesLe, h.writesLe, h.disjHS, h.disjHW, h.disjSW, h.heapRecord⟩

theorem inv_schedule_here (s : SimState) (d : Time) (p : Proc) (hd0 : 0 ≤ d)
    (hperm : (serveIds (List.orderedInsert evLe ⟨s.now + d, s.nextEid, p⟩ s.events)).Perm
      (serveIds s.events))
    (h : Inv s) :
    Inv { s with
      events := List.orderedInsert evLe ⟨s.now + d, s.nextEid, p⟩ s.events
      nextEid := s.nextEid + 1 } := by
  refine ⟨?_, ?_, h.enterLB, h.exitGe, h.heapNodup, ?_, h.writesNodup, h.heapLe, ?_,
    h.writesLe, ?_, h.disjHW, ?_, h.heapRecord⟩
  · exact List.Sorted.orderedInsert _ _ h.sorted
  · intro f hf
    rcases (List.mem_orderedInsert evLe).mp hf with hf' | hf'
    · rw [hf']
      exact le_add_of_nonneg_right hd0
    · exact h.lb f hf'
  · exact hperm.symm.nodup h.servesNodup
  · intro id hid
    exact h.servesLe id (hperm.mem_iff.mp hid)
  · intro id hid hmem
    exact h.disjHS id hid (hperm.mem_iff.mp hmem)
  · intro id hid
    exact h.disjSW id (hperm.mem_iff.mp hid)

theorem inv_timeout (s : SimState) (d : Time) (p : Proc) (hp : procServeId p = none)
    (h : Inv s) : Inv (timeout s d p) := by
  unfold timeout
  split
  · exact inv_error s h
  · next hd =>
    refine inv_schedule_here s d p (le_of_not_lt hd) ?_ h
    have hins := serveIds_orderedInsert ⟨s.now + d, s.nextEid, p⟩ s.events
    simpa [hp] using hins

theorem inv_spawn (s : SimState) (p : Proc) (hp : procServeId p = none)
    (h : Inv s) : Inv (spawn s p) := by
  have hins := serveIds_orderedInsert ⟨s.now, s.nextEid, p⟩ s.events
  have h0 : s.now + 0 = s.now := add_zero _
  have := inv_schedule_here s 0 p le_rfl (by rw [h0]; simpa [hp] using hins) h
  rw [h0] at this
  exact this

theorem inv_schedule_serve (s : SimState) (d : Time) (p : Proc) (id : ℕ) (hd0 : 0 ≤ d)
    (hid : procServeId p = some id)
    (hidS : id ∉ serveIds s.events) (hidH : id ∉ heapIds s.heap)
    (hidW : id ∉ s.exitWrites) (hidLe : id ≤ s.jobId)
    (h : Inv s) :
    Inv { s with
      events := List.orderedInsert evLe ⟨s.now + d, s.nextEid, p⟩ s.events
      nextEid := s.nextEid + 1 } := by
  have hperm : (serveIds (List.orderedInsert evLe ⟨s.now + d, s.nextEid, p⟩ s.events)).Perm
      (id :: serveIds s.events) := by
    have hins := serveIds_orderedInsert ⟨s.now + d, s.nextEid, p⟩ s.events
    simpa [hid] using hins
  refine ⟨?_, ?_, h.enterLB, h.exitGe, h.heapNodup, ?_, h.writesNodup, h.heapLe, ?_,
    h.writesLe, ?_, h.disjHW, ?_, h.heapRecord⟩
  · exact List.Sorted.orderedInsert _ _ h.sorted
  · intro f hf
    rcases (List.mem_orderedInsert evLe).mp hf with hf' | hf'
    · rw [hf']
      exact le_add_of_nonneg_right hd0
    · exact h.lb f hf'
  · exact hperm.symm.nodup (List.nodup_cons.mpr ⟨hidS, h.servesNodup⟩)
  · intro i hi
    rcases List.mem_cons.mp (hperm.mem_iff.mp hi) with hi' | hi'
    · rw [hi']; exact hidLe
    · exact h.servesLe i hi'
  · intro i hi hmem
    rcases List.mem_cons.mp (hperm.mem_iff.mp hmem) with hi' | hi'
    · rw [hi'] at hi; exact hidH hi
    · exact h.disjHS i hi hi'
  · intro i hi
    rcases List.mem_cons.mp (hperm.mem_iff.mp hi) with hi' | hi'
    · rw [hi']; exact hidW
    · exact h.disjSW i hi'

theorem inv_spawn_serve (s : SimState) (p : Proc) (id : ℕ) (hid : procServeId p = some id)
    (hidS : id ∉ serveIds s.events) (hidH : id ∉ heapIds s.heap)
    (hidW : id ∉ s.exitWrites) (hidLe : id ≤ s.jobId) (h : Inv s) : Inv (spawn s p) := by
  have h0 : s.now + 0 = s.now := add_zero _
  have hh := inv_schedule_serve s 0 p id le_rfl hid hidS hidH hidW hidLe h
  rw [h0] at hh
  exact hh

theorem inv_timeout_serve (s : SimState) (d : Time) (p : Proc) (id : ℕ)
    (hid : procServeId p = some id)
    (hidS : id ∉ serveIds s.events) (hidH : id ∉ heapIds s.heap)
    (hidW : id ∉ s.exitWrites) (hidLe : id ≤ s.jobId) (h : Inv s) :
    Inv (timeout s d p) := by
  unfold timeout
  split
  · exact inv_error s h
  · next hd => exact inv_schedule_serve s d p id (le_of_not_lt hd) hid hidS hidH hidW hidLe h

theorem heapIds_push (heap : List HeapEntry) (item : HeapEntry) :
    (heapIds (heappush entryLt heap item)).Perm (item.jobId :: heapIds heap) := by
  have h := (heappush_perm entryLt heap item).map HeapEntry.jobId
  simpa [heapIds] using h

theorem mem_heappush {heap : List HeapEntry} {item f : HeapEntry}
    (h : f ∈ heappush entryLt heap item) : f = item ∨ f ∈ heap := by
  have h2 := (heappush_perm entryLt heap item).mem_iff.mp h
  simpa using h2

/-- The body of generate_jobs after its interarrival timeout fires: allocate
the next job id, push (class, job) on the heap, and record the arrival in
total_jobs.  This transition keeps the run invariant. -/
theorem inv_admitJob (s : SimState) (c : ℕ) (h : Inv s) :
    Inv { s with
      jobId := s.jobId + 1
      heap := heappush entryLt s.heap ⟨c, s.jobId + 1, c⟩
      store := storeInsert s.store (s.jobId + 1) ⟨c, s.now, none⟩ } := by
  have hpush : (heapIds (heappush entryLt s.heap ⟨c, s.jobId + 1, c⟩)).Perm
      ((s.jobId + 1) :: heapIds s.heap) := heapIds_push s.heap ⟨c, s.jobId + 1, c⟩
  refine ⟨h.sorted, h.lb, ?_, ?_, ?_, h.servesNodup, h.writesNodup, ?_, ?_, ?_, ?_, ?_,
    h.disjSW, ?_⟩
  · intro i r hr
    by_cases hi : i = s.jobId + 1
    · subst hi
      rw [storeLookup_insert_self] at hr
      injection hr with hr
      rw [← hr]
    · rw [storeLookup_insert_ne _ _ _ _ hi] at hr
      exact h.enterLB i r hr
  · intro i r t hr hex
    by_cases hi : i = s.jobId + 1
    · subst hi
      rw [storeLookup_insert_self] at hr
      injection hr with hr
      rw [← hr] at hex
      exact absurd hex (by simp)
    · rw [storeLookup_insert_ne _ _ _ _ hi] at hr
      exact h.exitGe i r t hr hex
  · refine hpush.symm.nodup (List.nodup_cons.mpr ⟨?_, h.heapNodup⟩)
    intro hmem
    have := h.heapLe _ hmem
    omega
  · intro i hi
    rcases List.mem_cons.mp (hpush.mem_iff.mp hi) with hi' | hi'
    · rw [hi']
    · exact le_trans (h.heapLe i hi') (Nat.le_succ _)
  · intro i hi
    exact le_trans (h.servesLe i hi) (Nat.le_succ _)
  · intro i hi
    exact le_trans (h.writesLe i hi) (Nat.le_succ _)
  · intro i hi hs
    rcases List.mem_cons.mp (hpush.mem_iff.mp hi) with hi' | hi'
    · rw [hi'] at hs
      have := h.servesLe _ hs
      omega
    · exact h.disjHS i hi' hs
  · intro i hi hw
    rcases List.mem_cons.mp (hpush.mem_iff.mp hi) with hi' | hi'
    · rw [hi'] at hw
      have := h.writesLe _ hw
      omega
    · exact h.disjHW i hi' hw
  · intro f hf
    rcases mem_heappush hf with hf' | hf'
    · subst hf'
      exact ⟨⟨c, s.now, none⟩, storeLookup_insert_self _ _ _, rfl, rfl⟩
    · obtain ⟨r, hr, hex, hpri⟩ := h.heapRecord f hf'
      have hne : f.jobId ≠ s.jobId + 1 := by
        have := h.heapLe f.jobId (List.mem_map_of_mem _ hf')
        omega
      exact ⟨r, by rw [storeLookup_insert_ne _ _ _ _ hne]; exact hr, hex, hpri⟩

/-- The body of Server.serve after its service timeout fires: stamp
exit_time and merge it into the total_jobs record.  This transition keeps
the run invariant as long as the finishing job id is not waiting in the
heap, not owned by another pending serve process, and not finalized
before. -/
theorem inv_finish (cfg : Config) (s : SimState) (id pri : ℕ)
    (hidS : id ∉ serveIds s.events) (hidH : id ∉ heapIds s.heap)
    (hidW : id ∉ s.exitWrites) (hidLe : id ≤ s.jobId)
    (h : Inv s) : Inv (resume cfg s (.serveFinish id pri)) := by
  simp only [resume]
  cases hl : storeLookup s.store id with
  | none => exact inv_error s h
  | some r =>
    refine ⟨h.sorted, h.lb, ?_, ?_, h.heapNodup, h.servesNodup, ?_, h.heapLe, h.servesLe,
      ?_, h.disjHS, ?_, ?_, ?_⟩
    · intro i r' hr'
      by_cases hi : i = id
      · subst hi
        rw [storeLookup_insert_self] at hr'
        injection hr' with hr'
        rw [← hr']
        exact h.enterLB _ r hl
      · rw [storeLookup_insert_ne _ _ _ _ hi] at hr'
        exact h.enterLB i r' hr'
    · intro i r' t hr' hex
      by_cases hi : i = id
      · subst hi
        rw [storeLookup_insert_self] at hr'
        injection hr' with hr'
        rw [← hr'] at hex
        simp only [Option.some.injEq] at hex
        rw [← hr', ← hex]
        exact h.enterLB _ r hl
      · rw [storeLookup_insert_ne _ _ _ _ hi] at hr'
        exact h.exitGe i r' t hr' hex
    · refine List.Nodup.append h.writesNodup (List.nodup_singleton id) ?_
      intro a ha hb
      rw [List.mem_singleton.mp hb] at ha
      exact hidW ha
    · intro i hi
      rcases List.mem_append.mp hi with hi' | hi'
      · exact h.writesLe i hi'
      · rw [List.mem_singleton.mp hi']
        exact hidLe
    · intro i hi hw
      rcases List.mem_append.mp hw with hw' | hw'
      · exact h.disjHW i hi hw'
      · rw [List.mem_singleton.mp hw'] at hi
        exact hidH hi
    · intro i hi hw
      rcases List.mem_append.mp hw with hw' | hw'
      · exact h.disjSW i hi hw'
      · rw [List.mem_singleton.mp hw'] at hi
        exact hidS hi
    · intro f hf
      obtain ⟨r', hr', hex, hpri⟩ := h.heapRecord f hf
      have hne : f.jobId ≠ id := by
        intro hfe
        exact hidH (hfe ▸ List.mem_map_of_mem _ hf)
      exact ⟨r', by rw [storeLookup_insert_ne _ _ _ _ hne]; exact hr', hex, hpri⟩

/-- The drain loop of PriorityQueue.start keeps the run invariant: each pop
removes one waiting entry from the heap and spawns the Server.serve process
that owns it. -/
theorem inv_queueStartLoop (cfg : Config) :
    ∀ (fuel : ℕ) (s : SimState), Inv s → Inv (queueStartLoop cfg fuel s) := by
  intro fuel
  induction fuel with
  | zero => intro s h; exact h
  | succ n ih =>
    intro s h
    unfold queueStartLoop
    cases hp : heappop entryLt s.heap with
    | none => exact inv_timeout _ 1 .queueStart rfl (inv_update_busy s false h)
    | some pr =>
      obtain ⟨e, rest⟩ := pr
      have hperm := heappop_perm entryLt s.heap e rest hp
      have hids : (e.jobId :: heapIds rest).Perm (heapIds s.heap) := by
        simpa [heapIds] using hperm.map HeapEntry.jobId
      have heMem : e ∈ s.heap := hperm.subset (List.mem_cons_self e rest)
      have heId : e.jobId ∈ heapIds s.heap := List.mem_map_of_mem _ heMem
      have hNodupCons : (e.jobId :: heapIds rest).Nodup := hids.symm.nodup h.heapNodup
      have hmid : Inv { s with
          busy := true
          heap := rest
          dispatched := s.dispatched ++ [e.jobId] } := by
        refine ⟨h.sorted, h.lb, h.enterLB, h.exitGe, ?_, h.servesNodup, h.writesNodup,
          ?_, h.servesLe, h.writesLe, ?_, ?_, h.disjSW, ?_⟩
        · exact (List.nodup_cons.mp hNodupCons).2
        · intro i hi
          exact h.heapLe i (hids.mem_iff.mp (List.mem_cons_of_mem _ hi))
        · intro i hi
          exact h.disjHS i (hids.mem_iff.mp (List.mem_cons_of_mem _ hi))
        · intro i hi
          exact h.disjHW i (hids.mem_iff.mp (List.mem_cons_of_mem _ hi))
        · intro f hf
          exact h.heapRecord f (hperm.subset (List.mem_cons_of_mem _ hf))
      have hspawn : Inv (spawn { s with
          busy := true
          heap := rest
          dispatched := s.dispatched ++ [e.jobId] } (.serveBegin e.jobId e.jobPri)) := by
        refine inv_spawn_serve _ _ e.jobId rfl ?_ ?_ ?_ ?_ hmid
        · exact h.disjHS e.jobId heId
        · exact (List.nodup_cons.mp hNodupCons).1
        · exact h.disjHW e.jobId heId
        · exact h.heapLe e.jobId heId
      exact ih _ hspawn

/-- Firing the earliest pending event: the clock moves forward to its time
and the remaining events, records and traces still satisfy the invariant
bounds. -/
theorem inv_pop {s : SimState} {e : Event} {rest : List Event}
    (heq : s.events = e :: rest) (h : Inv s) :
    Inv { s with now := e.time, events := rest } := by
  have hse : List.Sorted evLe (e :: rest) := heq ▸ h.sorted
  obtain ⟨hall, hsr⟩ := List.sorted_cons.mp hse
  have hnow : s.now ≤ e.time := h.lb e (by rw [heq]; exact List.mem_cons_self e rest)
  have hserveSub : ∀ i ∈ serveIds rest, i ∈ serveIds s.events := by
    intro i hi
    rw [heq, serveIds_cons]
    exact List.mem_append_right _ hi
  have hservesNodup : (serveIds rest).Nodup := by
    have hn : (serveIds (e :: rest)).Nodup := by rw [← heq]; exact h.servesNodup
    rw [serveIds_cons] at hn
    exact hn.of_append_right
  refine ⟨hsr, ?_, ?_, h.exitGe, h.heapNodup, hservesNodup, h.writesNodup, h.heapLe,
    fun i hi => h.servesLe i (hserveSub i hi), h.writesLe,
    fun i hi hm => h.disjHS i hi (hserveSub _ hm), h.disjHW,
    fun i hi => h.disjSW i (hserveSub i hi), h.heapRecord⟩
  · intro f hf
    exact evLe_time (hall f hf)
  · intro i r hr
    exact le_trans (h.enterLB i r hr) hnow

/-- One step of the scheduler keeps the run invariant. -/
theorem step_inv {cfg : Config} {horizon : Time} {s s' : SimState}
    (h : Inv s) (hstep : step cfg horizon s = some s') : Inv s' := by
  unfold step at hstep
  split at hstep
  · exact absurd hstep (by simp)
  · split at hstep
    · exact absurd hstep (by simp)
    · next e rest heq =>
      split at hstep
      · injection hstep with hs
        subst hs
        have h1 : Inv { s with now := e.time, events := rest } := inv_pop heq h
        cases hproc : e.proc with
        | genFirst c =>
          simp only [resume]
          exact inv_timeout _ _ _ rfl (inv_sample cfg _ _ h1)
        | genArrive c =>
          simp only [resume]
          exact inv_timeout _ _ _ rfl (inv_sample cfg _ _ (inv_admitJob _ c h1))
        | processJobs =>
          simp only [resume]
          split
          · exact inv_timeout _ _ _ rfl (inv_spawn _ _ rfl h1)
          · exact inv_timeout _ _ _ rfl h1
        | queueStart =>
          simp only [resume]
          exact inv_queueStartLoop cfg _ _ h1
        | serveBegin jid pri =>
          have hidMem : jid ∈ serveIds s.events := by
            rw [heq, serveIds_cons, hproc]
            simp [procServeId]
          have hidS : jid ∉ serveIds rest := by
            have hn : (serveIds (e :: rest)).Nodup := by rw [← heq]; exact h.servesNodup
            rw [serveIds_cons, hproc] at hn
            exact (List.nodup_cons.mp (by simpa [procServeId] using hn)).1
          simp only [resume]
          refine inv_timeout_serve _ _ _ jid rfl ?_ ?_ ?_ ?_ (inv_sample cfg _ _ h1)
          · exact hidS
          · intro hh
            exact h.disjHS jid hh hidMem
          · exact h.disjSW jid hidMem
          · exact h.servesLe jid hidMem
        | serveFinish jid pri =>
          have hidMem : jid ∈ serveIds s.events := by
            rw [heq, serveIds_cons, hproc]
            simp [procServeId]
          have hidS : jid ∉ serveIds rest := by
            have hn : (serveIds (e :: rest)).Nodup := by rw [← heq]; exact h.servesNodup
            rw [serveIds_cons, hproc] at hn
            exact (List.nodup_cons.mp (by simpa [procServeId] using hn)).1
          refine inv_finish cfg _ jid pri ?_ ?_ ?_ ?_ h1
          · exact hidS
          · intro hh
            exact h.disjHS jid hh hidMem
          · exact h.disjSW jid hidMem
          · exact h.servesLe jid hidMem
      · exact absurd hstep (by simp)

theorem runFor_inv (cfg : Config) (horizon : Time) :
    ∀ (fuel : ℕ) (s : SimState), Inv s → Inv (runFor cfg horizon fuel s) := by
  intro fuel
  induction fuel with
  | zero => intro s h; exact h
  | succ n ih =>
    intro s h
    unfold runFor
    cases hstep : step cfg horizon s with
    | none => exact h
    | some s' => exact ih s' (step_inv h hstep)

theorem initEvents_eid_lt (n : ℕ) : ∀ e ∈ initEvents n, e.eid < 2 * n := by
  induction n with
  | zero => intro e he; simp [initEvents] at he
  | succ m ih =>
    intro e he
    simp only [initEvents, List.mem_append, List.mem_cons, List.not_mem_nil, or_false] at he
    rcases he with h | h | h
    · have := ih e h; omega
    · subst h; show 2 * m < 2 * (m + 1); omega
    · subst h; show 2 * m + 1 < 2 * (m + 1); omega

theorem initEvents_sorted (n : ℕ) : (initEvents n).Sorted evLe := by
  induction n with
  | zero => exact List.sorted_nil
  | succ m ih =>
    rw [initEvents]
    refine List.pairwise_append.mpr ⟨ih, ?_, ?_⟩
    · refine List.pairwise_cons.mpr ⟨?_, List.pairwise_singleton _ _⟩
      intro b hb
      rw [List.mem_singleton.mp hb]
      exact Or.inr ⟨rfl, by show 2 * m ≤ 2 * m + 1; omega⟩
    · intro a ha b hb
      have ht : a.time = 0 := initEvents_time_eq_zero m a ha
      have he : a.eid < 2 * m := initEvents_eid_lt m a ha
      rcases List.mem_cons.mp hb with hb' | hb'
      · rw [hb']
        exact Or.inr ⟨by rw [ht], by show a.eid ≤ 2 * m; omega⟩
      · rw [List.mem_singleton.mp hb']
        exact Or.inr ⟨by rw [ht], by show a.eid ≤ 2 * m + 1; omega⟩

theorem initEvents_serveIds (n : ℕ) : serveIds (initEvents n) = [] := by
  induction n with
  | zero => rfl
  | succ m ih =>
    rw [initEvents, serveIds, List.filterMap_append]
    rw [serveIds] at ih
    rw [ih]
    rfl

/-- The state built by SimQueue.__init__ satisfies the run invariant. -/
theorem inv_initState (n : ℕ) : Inv (initState n) := by
  refine ⟨initEvents_sorted n, ?_, ?_, ?_, List.nodup_nil, ?_, List.nodup_nil, ?_, ?_, ?_,
    ?_, ?_, ?_, ?_⟩
  · intro e he
    exact le_of_eq (initEvents_time_eq_zero n e he).symm
  · intro id r hr
    exact absurd hr (by simp [storeLookup])
  · intro id r t hr _
    exact absurd hr (by simp [storeLookup])
  · rw [show (initState n).events = initEvents n from rfl, initEvents_serveIds]
    exact List.nodup_nil
  · intro i hi
    simp [heapIds, initState] at hi
  · intro i hi
    rw [show (initState n).events = initEvents n from rfl, initEvents_serveIds] at hi
    simp at hi
  · intro i hi
    simp [initState] at hi
  · intro i hi
    simp [heapIds, initState] at hi
  · intro i hi
    simp [heapIds, initState] at hi
  · intro i hi
    rw [show (initState n).events = initEvents n from rfl, initEvents_serveIds] at hi
    simp at hi
  · intro f hf
    simp [initState] at hf

/-- Claim C4: for every job that completes service during the run, the
recorded departure time is at least the recorded arrival time. -/
theorem C4_departure_ge_arrival (rates : List Time) (svc horizon : Time) (rng : ℕ → Time)
    (fuel : ℕ) (id : ℕ) (r : Record) (t : Time)
    (hr : storeLookup (simulate_queue rates svc horizon rng fuel).store id = some r)
    (ht : r.exit = some t) : r.enter ≤ t :=
  (runFor_inv ⟨rates, svc, rng⟩ horizon fuel (initState rates.length)
    (inv_initState rates.length)).exitGe id r t hr ht

unseal Rat.add Rat.mul Rat.inv in
theorem C4_departure_ge_arrival_witness :
    storeLookup (simulate_queue [1, 1] 1 3 rngA 40).store 3 = some ⟨0, 1, some 2⟩ ∧
    (⟨0, 1, some 2⟩ : Record).exit = some 2 ∧ (⟨0, 1, some 2⟩ : Record).enter ≤ 2 :=
  ⟨by decide, rfl,
    C4_departure_ge_arrival [1, 1] 1 3 rngA 40 3 ⟨0, 1, some 2⟩ 2 (by decide) rfl⟩

/-- Claim C5: a departure time is written at most once per job: the trace
of exit_time writes of a run never repeats a job id, so no record
finalization is ever overwritten (and a second finalization of the same
job is never attempted). -/
theorem C5_exit_written_once (rates : List Time) (svc horizon : Time) (rng : ℕ → Time)
    (fuel : ℕ) : (simulate_queue rates svc horizon rng fuel).exitWrites.Nodup :=
  (runFor_inv ⟨rates, svc, rng⟩ horizon fuel (initState rates.length)
    (inv_initState rates.length)).writesNodup

/-- Claim C9: every job still waiting in the Admission Queue when the run
halts has a Result Record carrying its priority class and its arrival
time, and no departure time. -/
theorem C9_queued_job_recorded (rates : List Time) (svc horizon : Time) (rng : ℕ → Time)
    (fuel : ℕ) (e : HeapEntry) (he : e ∈ (simulate_queue rates svc horizon rng fuel).heap) :
    ∃ r, storeLookup (simulate_queue rates svc horizon rng fuel).store e.jobId = some r ∧
      r.exit = none ∧ r.priority = e.pri :=
  (runFor_inv ⟨rates, svc, rng⟩ horizon fuel (initState rates.length)
    (inv_initState rates.length)).heapRecord e he

unseal Rat.add Rat.mul Rat.inv in
theorem C9_queued_job_recorded_witness :
    (⟨0, 1, 0⟩ : HeapEntry) ∈ (simulate_queue [1] 1 2 rngB 10).heap ∧
    ∃ r, storeLookup (simulate_queue [1] 1 2 rngB 10).store 1 = some r ∧
      r.exit = none ∧ r.priority = 0 :=
  ⟨by decide, C9_queued_job_recorded [1] 1 2 rngB 10 ⟨0, 1, 0⟩ (by decide)⟩

end QueuingSim
